import Mathlib

/-!
Verification of the word-identifier codec of `9.1 Шифратор.py`
(class `WordIDGenerator`).

Words and codes are modelled as `List Char`; Python dictionaries whose keys
matter for behaviour are modelled as association lists so that a failing key
lookup (Python `KeyError`) is visible as an `Except.error`.  All definitions
follow the Python source line by line; fallible operations return
`Except String _`.
-/

namespace WordID

/-- The 20 consonants, sorted (source line 4). -/
def consonants : List Char :=
  ['b', 'c', 'd', 'f', 'g', 'h', 'j', 'k', 'l', 'm',
   'n', 'p', 'q', 'r', 's', 't', 'v', 'w', 'x', 'z']

/-- The 6 vowels, sorted (source line 7). -/
def vowels : List Char := ['a', 'e', 'i', 'o', 'u', 'y']

/-- All 26 letters of the alphabet, consonants first. -/
def alphaChars : List Char := consonants ++ vowels

/-- The base-32 alphabet `0123456789ABCDEFGHIJKLMNOPQRSTUV` (source line 10). -/
def base32_alphabet : List Char :=
  ['0', '1', '2', '3', '4', '5', '6', '7', '8', '9',
   'A', 'B', 'C', 'D', 'E', 'F', 'G', 'H', 'I', 'J',
   'K', 'L', 'M', 'N', 'O', 'P', 'Q', 'R', 'S', 'T', 'U', 'V']

/-- Digit extraction loop of `_to_base32` (source lines 42-46): most
significant digit first; empty for 0.  The recursion is structural on a fuel
argument so that the kernel can evaluate it; the loop variable strictly
decreases through `n / 32`, so fuel `n` is always sufficient. -/
def toBase32CoreF : Nat → Nat → List Char
  | 0, _ => []
  | Nat.succ fuel, n =>
    if n = 0 then []
    else toBase32CoreF fuel (n / 32) ++ [base32_alphabet.getD (n % 32) '?']

/-- The digit loop entered with sufficient fuel. -/
def toBase32Core (n : Nat) : List Char := toBase32CoreF n n

/-- `_to_base32` (source lines 37-47).  NOTE: the `number == 0` early return
(line 39-40) yields the single character `"0"` WITHOUT the `zfill(2)` padding,
which is applied only on the loop path (line 47). -/
def _to_base32 (number : Nat) : List Char :=
  if number = 0 then [base32_alphabet.getD 0 '?']
  else
    let result := toBase32Core number
    List.replicate (2 - result.length) '0' ++ result

/-- `_from_base32` (source lines 49-54).  Python `list.index` raises on a
symbol outside the alphabet; that case is never reached by the claims (all
decoded strings are produced by `_to_base32`), so the total `List.indexOf`
(which would return 32 there) is used. -/
def _from_base32 (s : List Char) : Nat :=
  s.foldl (fun acc c => acc * 32 + base32_alphabet.indexOf c) 0

/-- `_char_to_code` (source lines 56-63): consonants map to 1..20, vowels to
21..26, anything else to 0. -/
def _char_to_code (c : Char) : Nat :=
  if c ∈ consonants then consonants.indexOf c + 1
  else if c ∈ vowels then 21 + vowels.indexOf c
  else 0

/-- `_code_to_char` (source lines 65-73). -/
def _code_to_char (code : Nat) : Char :=
  if 1 ≤ code ∧ code ≤ 20 then consonants.getD (code - 1) '?'
  else if 21 ≤ code ∧ code ≤ 26 then vowels.getD (code - 21) '?'
  else '?'

/-- `encode_syllable` (source lines 75-85): base-32 accumulation of the
per-letter codes; the empty syllable encodes to the literal `"00"`. -/
def encode_syllable (syllable : List Char) : List Char :=
  if syllable = [] then ['0', '0']
  else _to_base32 (syllable.foldl (fun code c => code * 32 + _char_to_code c) 0)

/-- Digit loop of `decode_syllable` (source lines 91-96), least significant
digit first; zero digits are skipped.  Structural fuel recursion as in
`toBase32CoreF`; fuel `num` always suffices. -/
def decodeDigitsF : Nat → Nat → List Char
  | 0, _ => []
  | Nat.succ fuel, num =>
    if num = 0 then []
    else (if num % 32 > 0 then [_code_to_char (num % 32)] else [])
      ++ decodeDigitsF fuel (num / 32)

/-- The digit loop entered with sufficient fuel. -/
def decodeDigits (num : Nat) : List Char := decodeDigitsF num num

/-- `decode_syllable` (source lines 87-98). -/
def decode_syllable (code : List Char) : List Char :=
  (decodeDigits (_from_base32 code)).reverse

/-- `_is_valid_stem` (source lines 100-107): at least 2 letters and at least
one vowel. -/
def _is_valid_stem (stem : List Char) : Bool :=
  if stem.length < 2 then false
  else stem.any (fun c => vowels.contains c)

/-- Python `str.startswith`: the first `p.length` characters equal `p`. -/
def startswith (w p : List Char) : Bool :=
  w.take p.length == p

/-- Python `str.endswith`: the last `l.length` characters equal `l`. -/
def endswith (w l : List Char) : Bool :=
  w.drop (w.length - l.length) == l

/-- The `grammar_suffixes` dictionary (source lines 13-19) in insertion
order: part-of-speech key, suffix text, Russian label. -/
def grammar_suffixes : List (String × (List Char × String)) :=
  [("participle", (['y', 'e', 'p', 'i'], "Причастие")),
   ("gerund", (['y', 'e', 'm', 'u'], "Деепричастие")),
   ("adjective", (['p', 'i'], "Прилагательное")),
   ("verb", (['y', 'e'], "Глагол")),
   ("adverb", (['m', 'u'], "Наречие"))]

/-- `grammar_suffixes.values()` in dictionary insertion order. -/
def suffix_values : List (List Char × String) := grammar_suffixes.map Prod.snd

/-- `suffix_candidates` (source lines 167-171): the suffix values sorted by
text length, longest first, with Python's stable sort.  On this fixed table
(lengths 4,4,2,2,2 already descending) the stable sort is the identity, so
the list coincides with `suffix_values`. -/
def suffix_candidates : List (List Char × String) := suffix_values

/-- Time prefixes, priority 1 (source lines 24-26), after the stable sort by
descending text length at lines 120-121: the dict-value order
`[ha, ake, ka]` (lengths 2,3,2) becomes `[ake, ha, ka]`. -/
def time_pres : List (List Char) := [['a', 'k', 'e'], ['h', 'a'], ['k', 'a']]

/-- Modality prefixes, priority > 1 (source lines 29-31), sorted by ascending
priority at lines 134-135: `to` (2), `te` (3), `ta` (4). -/
def modality_pres : List (List Char) := [['t', 'o'], ['t', 'e'], ['t', 'a']]

/-- The result dictionary of `_detect_grammar_affixes` (source lines
112-117).  The Python code stores the whole prefix/suffix info dicts; the
time and modality entries are kept here as their `'prefix'` texts (the only
field later code reads from them), while the suffix entry keeps its
`'suffix'` text together with its `'label'` — exactly the two keys the
stored dict has (relevant for the `['prefix']` lookup in
`_grammar_affixes_to_code`). -/
structure AffixAnalysis where
  timePre : Option (List Char)
  modPres : List (List Char)
  sfx : Option (List Char × String)
  stem : List Char
deriving DecidableEq, Repr

/-- Step 1 of `_detect_grammar_affixes` (source lines 119-131): first time
prefix whose removal leaves a valid stem, together with the remaining word. -/
def detectTime (w : List Char) : Option (List Char) × List Char :=
  match time_pres.find? (fun p => startswith w p && _is_valid_stem (w.drop p.length)) with
  | some p => (some p, w.drop p.length)
  | none => (none, w)

/-- The acceptance test for one modality prefix (source lines 145-158): after
removing the prefix, either some suffix can be stripped leaving a valid stem,
or the remainder itself is a valid stem. -/
def _modality_ok (remaining : List Char) : Bool :=
  suffix_values.any (fun e =>
      endswith remaining e.1 && _is_valid_stem (remaining.take (remaining.length - e.1.length)))
    || _is_valid_stem remaining

/-- The `while found_modality and word` loop of step 2 (source lines
133-164).  Each accepted prefix has length 2, so the loop strips at least one
character per iteration and fuel `w.length` is always sufficient; the fuel
argument only makes the recursion structural. -/
def detectModsGo : Nat → List Char → List (List Char) × List Char
  | 0, w => ([], w)
  | Nat.succ fuel, w =>
    if w = [] then ([], w)
    else
      match modality_pres.find? (fun p => startswith w p && _modality_ok (w.drop p.length)) with
      | some p =>
        let r := detectModsGo fuel (w.drop p.length)
        (p :: r.1, r.2)
      | none => ([], w)

/-- Step 3 of `_detect_grammar_affixes` (source lines 166-180): first
candidate suffix (longest first) whose removal leaves a valid stem. -/
def detectSfx (w : List Char) : Option (List Char × String) × List Char :=
  match suffix_candidates.find? (fun e =>
      endswith w e.1 && _is_valid_stem (w.take (w.length - e.1.length))) with
  | some e => (some e, w.take (w.length - e.1.length))
  | none => (none, w)

/-- `_fallback_detection` (source lines 190-209): suffix-only stripping, in
dictionary order, requiring only a remainder of at least 2 characters. -/
def _fallback_detection (word : List Char) : AffixAnalysis :=
  match suffix_values.find? (fun e =>
      endswith word e.1 && decide (2 ≤ (word.take (word.length - e.1.length)).length)) with
  | some e => { timePre := none, modPres := [], sfx := some e,
                stem := word.take (word.length - e.1.length) }
  | none => { timePre := none, modPres := [], sfx := none, stem := word }

/-- `_detect_grammar_affixes` (source lines 109-188): time prefix, then the
modality loop, then the suffix, then the stem-validity check with fallback to
`_fallback_detection` on the original word. -/
def _detect_grammar_affixes (word : List Char) : AffixAnalysis :=
  let t := detectTime word
  let m := detectModsGo t.2.length t.2
  let s := detectSfx m.2
  if _is_valid_stem s.2 then
    { timePre := t.1, modPres := m.1, sfx := s.1, stem := s.2 }
  else _fallback_detection word

/-- Character loop of `_split_stem_into_syllables` (source lines 261-278):
close a syllable at 3 letters, at the end of the stem, or at a vowel-vowel
boundary. -/
def stemSplitGo (current : List Char) : List Char → List (List Char)
  | [] => []
  | c :: rest =>
    let cur := current ++ [c]
    if 3 ≤ cur.length then cur :: stemSplitGo [] rest
    else if rest = [] then [cur]
    else if vowels.contains c && (match rest with | n :: _ => vowels.contains n | [] => false) then
      cur :: stemSplitGo [] rest
    else stemSplitGo cur rest

/-- `_split_stem_into_syllables` (source lines 252-279): a stem of up to 3
letters is a single syllable. -/
def _split_stem_into_syllables (stem : List Char) : List (List Char) :=
  if stem = [] then []
  else if stem.length ≤ 3 then [stem]
  else stemSplitGo [] stem

/-- Character loop of `_split_suffix_into_syllables` (source lines 286-290):
close a syllable at each vowel; also returns the leftover consonant run. -/
def sfxSplitGo (current : List Char) : List Char → List (List Char) × List Char
  | [] => ([], current)
  | c :: rest =>
    let cur := current ++ [c]
    if vowels.contains c then
      let r := sfxSplitGo [] rest
      (cur :: r.1, r.2)
    else sfxSplitGo cur rest

/-- `_split_suffix_into_syllables` (source lines 281-298): a trailing
consonant run is merged into the last syllable, or emitted alone. -/
def _split_suffix_into_syllables (sfx : List Char) : List (List Char) :=
  match sfxSplitGo [] sfx with
  | (sylls, current) =>
    if current = [] then sylls
    else
      match sylls with
      | [] => [current]
      | _ => sylls.dropLast ++ [sylls.getLastD [] ++ current]

/-- `_improved_syllable_split` (source lines 223-250): time prefix and each
modality prefix become their own syllables, then the split stem, then the
split suffix. -/
def _improved_syllable_split (word : List Char) : List (List Char) :=
  if word = [] then []
  else
    let a := _detect_grammar_affixes word
    (match a.timePre with | some t => [t] | none => [])
      ++ a.modPres
      ++ _split_stem_into_syllables a.stem
      ++ (match a.sfx with | some e => _split_suffix_into_syllables e.1 | none => [])

/-- Python's substring test `p in w`. -/
def isSubstringOf (p : List Char) : List Char → Bool
  | [] => p == []
  | c :: t => startswith (c :: t) p || isSubstringOf p t

/-- Python `str.split` with a non-empty separator, on lists of characters:
scan left to right, cut at each occurrence of the separator (pieces may be
empty), keep the remainder as the last piece.  The recursion is structural on
a fuel argument so the kernel can evaluate it; each step consumes at least
one character when the separator is non-empty (the only way the caller uses
it), so fuel `w.length` is always sufficient. -/
def pySplitF (sep : List Char) : Nat → List Char → List (List Char)
  | _, [] => [[]]
  | 0, rest => [rest]
  | Nat.succ fuel, c :: rest =>
    if startswith (c :: rest) sep then
      [] :: pySplitF sep fuel ((c :: rest).drop sep.length)
    else
      match pySplitF sep fuel rest with
      | [] => [[c]]
      | p :: ps => (c :: p) :: ps

/-- Python `word.split(sep)`, entered with sufficient fuel. -/
def pySplit (sep w : List Char) : List (List Char) := pySplitF sep w.length w

/-- `word_to_syllables` (source lines 216-221): split on the delimiter when
it is non-empty and occurs in the word, otherwise use the heuristic split. -/
def word_to_syllables (word : List Char) (delimiter : String) : List (List Char) :=
  if delimiter ≠ "" ∧ isSubstringOf delimiter.toList word then
    pySplit delimiter.toList word
  else _improved_syllable_split word

/-- Lookup in a Python dict modelled as an association list; a missing key is
Python's `KeyError`. -/
def dictGet (d : List (String × String)) (k : String) : Except String String :=
  match d.find? (fun p => p.1 == k) with
  | some p => Except.ok p.2
  | none => Except.error ("KeyError: " ++ k)

/-- The `time_map` of `_grammar_affixes_to_code` (source line 339). -/
def time_map_enc : List (List Char × List Char) :=
  [(['h', 'a'], ['T', 'P']), (['a', 'k', 'e'], ['T', 'N']), (['k', 'a'], ['T', 'F'])]

/-- The `suffix_map` of `_grammar_affixes_to_code` (source lines 360-363),
keyed by part-of-speech name. -/
def suffix_map_enc : List (String × List Char) :=
  [("adjective", ['S', 'A']), ("participle", ['S', 'P']), ("verb", ['S', 'V']),
   ("adverb", ['S', 'D']), ("gerund", ['S', 'G'])]

/-- `_grammar_affixes_to_code` (source lines 334-366).  The suffix branch
evaluates `affix_info['suffix']['prefix']` (line 364); the stored suffix dict
has only the keys `'suffix'` and `'label'`, so that subscript raises
`KeyError` in Python — modelled by `dictGet` on the two-key association
list. -/
def _grammar_affixes_to_code (a : AffixAnalysis) : Except String (List Char) :=
  let time_code : List Char :=
    match a.timePre with
    | none => ['0', '0']
    | some t => (time_map_enc.lookup t).getD ['0', '0']
  let modality_code : List Char :=
    if a.modPres.isEmpty then ['0', '0']
    else
      _to_base32 (a.modPres.foldl
        (fun mask p =>
          if p = ['t', 'o'] then mask ||| 1
          else if p = ['t', 'e'] then mask ||| 2
          else if p = ['t', 'a'] then mask ||| 4
          else mask) 0)
  match a.sfx with
  | none => Except.ok (time_code ++ modality_code ++ ['0', '0'])
  | some si =>
    match dictGet [("suffix", String.mk si.1), ("label", si.2)] "prefix" with
    | Except.error e => Except.error e
    | Except.ok k => Except.ok (time_code ++ modality_code ++ ((suffix_map_enc.lookup k).getD ['0', '0']))

/-- The decoding `time_map` (source lines 378-382): tag to prefix text and
label. -/
def time_map_dec : List (List Char × (List Char × String)) :=
  [(['T', 'P'], (['h', 'a'], "Прошедшее время")),
   (['T', 'N'], (['a', 'k', 'e'], "Настоящее время")),
   (['T', 'F'], (['k', 'a'], "Будущее время"))]

/-- The decoding `suffix_map` (source lines 385-391): tag to part-of-speech
key and label. -/
def suffix_map_dec : List (List Char × (String × String)) :=
  [(['S', 'A'], ("adjective", "Прилагательное")),
   (['S', 'P'], ("participle", "Причастие")),
   (['S', 'V'], ("verb", "Глагол")),
   (['S', 'D'], ("adverb", "Наречие")),
   (['S', 'G'], ("gerund", "Деепричастие"))]

/-- The dictionary returned by `_code_to_grammar_affixes` (source lines
407-413); `none` fields are Python `None`. -/
structure DecodedGrammar where
  timePre : Option (List Char)
  timeLabel : Option String
  modPres : List (List Char × String)
  sfxPart : Option String
  sfxLabel : Option String
deriving DecidableEq, Repr

/-- `_code_to_grammar_affixes` (source lines 368-413); the empty dictionary
returned for a code of length other than 6 is `none`. -/
def _code_to_grammar_affixes (code : List Char) : Option DecodedGrammar :=
  if code.length ≠ 6 then none
  else
    let time_code := code.take 2
    let modality_code := (code.drop 2).take 2
    let suffix_code := (code.drop 4).take 2
    let ti := time_map_dec.lookup time_code
    let si := suffix_map_dec.lookup suffix_code
    let mask := _from_base32 modality_code
    let mods :=
      (if mask &&& 1 ≠ 0 then [(['t', 'o'], "Абсолютизм")] else [])
        ++ (if mask &&& 2 ≠ 0 then [(['t', 'e'], "Неопределённость")] else [])
        ++ (if mask &&& 4 ≠ 0 then [(['t', 'a'], "Отсутствие")] else [])
    some { timePre := ti.map Prod.fst, timeLabel := ti.map Prod.snd,
           modPres := mods,
           sfxPart := si.map Prod.fst, sfxLabel := si.map Prod.snd }

/-- `word_to_id` (source lines 300-332).  The statistics counters (lines
326-330) are pure bookkeeping and are not modelled.  The grammar-tag step can
raise (see `_grammar_affixes_to_code`), hence the `Except` result. -/
def word_to_id (word : List Char) (delimiter : String)
    (include_length include_grammar : Bool) : Except String (List Char) :=
  let affix_info := _detect_grammar_affixes word
  let syllables := word_to_syllables word delimiter
  let id0 := (syllables.map encode_syllable).flatten
  let id1 := if include_length then _to_base32 syllables.length ++ id0 else id0
  if include_grammar then
    match _grammar_affixes_to_code affix_info with
    | Except.ok g => Except.ok (id1 ++ g)
    | Except.error e => Except.error e
  else Except.ok id1

/-- Suffix text of a part-of-speech key, i.e. Python's
`self.grammar_suffixes[key]['suffix']` (source line 459); the keys produced
by `_code_to_grammar_affixes` are always present. -/
def suffixTextOfKey (k : String) : List Char :=
  ((grammar_suffixes.find? (fun e => e.1 == k)).map (fun e => e.2.1)).getD []

/-- `id_to_word` (source lines 415-463): strip and decode the trailing
grammar tag, consume the length field, decode each 2-character chunk, join
with the delimiter, then re-attach modality prefixes (reversed), the time
prefix and the suffix when not already present. -/
def id_to_word (id_string : List Char) (delimiter : String)
    (include_length include_grammar : Bool) : List Char × Option DecodedGrammar :=
  let p1 : Option DecodedGrammar × List Char :=
    if include_grammar ∧ 6 ≤ id_string.length then
      (_code_to_grammar_affixes (id_string.drop (id_string.length - 6)),
       id_string.take (id_string.length - 6))
    else (none, id_string)
  let gInfo := p1.1
  let rest := p1.2
  let p2 : Nat × List Char :=
    if include_length then (_from_base32 (rest.take 2), rest.drop 2)
    else (rest.length / 2, rest)
  let syllable_count := p2.1
  let code_part := p2.2
  let syllables := (List.range syllable_count).filterMap (fun i =>
    if (i + 1) * 2 ≤ code_part.length then
      some (decode_syllable ((code_part.drop (i * 2)).take 2))
    else none)
  let word := (List.intersperse delimiter.toList syllables).flatten
  let w1 :=
    match gInfo with
    | none => word
    | some g =>
      g.modPres.reverse.foldl
        (fun acc m => if m.1 ≠ [] ∧ ¬ startswith acc m.1 then m.1 ++ acc else acc) word
  let w2 :=
    match gInfo with
    | none => w1
    | some g =>
      match g.timePre with
      | some t => if t ≠ [] ∧ ¬ startswith w1 t then t ++ w1 else w1
      | none => w1
  let w3 :=
    match gInfo with
    | none => w2
    | some g =>
      match g.sfxPart with
      | some k =>
        let sfxText := suffixTextOfKey k
        if ¬ endswith w2 sfxText then w2 ++ sfxText else w2
      | none => w2
  (w3, gInfo)

/-- `get_collision_probability` (source lines 536-544), with the Python
floats modelled over `ℚ`; the exponent `word_count*(word_count-1)/2` is an
exact integer (the product of consecutive numbers is even). -/
def get_collision_probability (word_count : Nat) : ℚ :=
  if 1024 < word_count then 1
  else 1 - (1 - 1 / 1024 : ℚ) ^ (word_count * (word_count - 1) / 2)

/-! ## Helper lemmas -/

lemma startswith_iff {w p : List Char} : startswith w p = true ↔ w.take p.length = p := by
  simp [startswith]

lemma endswith_iff {w l : List Char} :
    endswith w l = true ↔ w.drop (w.length - l.length) = l := by
  simp [endswith]

/-- Letter codes of alphabet letters lie in 1..26. -/
lemma char_code_bounds : ∀ c ∈ alphaChars, 1 ≤ _char_to_code c ∧ _char_to_code c ≤ 26 := by
  decide

/-- Characters outside the alphabet get code 0. -/
lemma char_code_zero {c : Char} (h : c ∉ alphaChars) : _char_to_code c = 0 := by
  have hc : c ∉ consonants := fun hm => h (List.mem_append.mpr (Or.inl hm))
  have hv : c ∉ vowels := fun hm => h (List.mem_append.mpr (Or.inr hm))
  simp [_char_to_code, hc, hv]

lemma encode_syllable_one (c : Char) :
    encode_syllable [c] = _to_base32 (_char_to_code c) := by
  simp [encode_syllable]

lemma encode_syllable_two (c1 c2 : Char) :
    encode_syllable [c1, c2] = _to_base32 (_char_to_code c1 * 32 + _char_to_code c2) := by
  simp [encode_syllable]

/-- Syllable round trip for a single alphabet letter, plus the width of its
code. -/
lemma dec_enc_one : ∀ c ∈ alphaChars,
    decode_syllable (_to_base32 (_char_to_code c)) = [c]
      ∧ (_to_base32 (_char_to_code c)).length = 2 := by
  decide

/-- Syllable round trip for two alphabet letters, plus the width of the
code. -/
lemma dec_enc_two : ∀ c1 ∈ alphaChars, ∀ c2 ∈ alphaChars,
    decode_syllable (_to_base32 (_char_to_code c1 * 32 + _char_to_code c2)) = [c1, c2]
      ∧ (_to_base32 (_char_to_code c1 * 32 + _char_to_code c2)).length = 2 := by
  decide

/-- Decoding drops the zero digit contributed by a non-letter in second
position. -/
lemma dec_enc_lone : ∀ c ∈ alphaChars,
    decode_syllable (_to_base32 (_char_to_code c * 32)) = [c] := by
  decide

lemma coreF_zero (f : Nat) : toBase32CoreF f 0 = [] := by
  cases f <;> simp [toBase32CoreF]

/-- One digit for values below 32. -/
lemma coreF_small {f n : Nat} (h1 : 0 < n) (h2 : n < 32) (hf : 0 < f) :
    toBase32CoreF f n = [base32_alphabet.getD (n % 32) '?'] := by
  obtain ⟨g, rfl⟩ : ∃ g, f = g + 1 := ⟨f - 1, by omega⟩
  have hdiv : n / 32 = 0 := Nat.div_eq_of_lt h2
  simp [toBase32CoreF, Nat.pos_iff_ne_zero.mp h1, hdiv, coreF_zero]

/-- `_to_base32` produces exactly 2 characters for positive values below
1024. -/
lemma to_base32_length {n : Nat} (h1 : 0 < n) (h2 : n < 1024) :
    (_to_base32 n).length = 2 := by
  unfold _to_base32 toBase32Core
  rw [if_neg (Nat.pos_iff_ne_zero.mp h1)]
  by_cases h : n < 32
  · rw [coreF_small h1 h h1]
    simp
  · push_neg at h
    obtain ⟨m, rfl⟩ : ∃ m, n = m + 1 := ⟨n - 1, by omega⟩
    have hne : ¬ (m + 1 = 0) := by omega
    have hd1 : 0 < (m + 1) / 32 := Nat.le_div_iff_mul_le (by decide) |>.mpr (by omega)
    have hd2 : (m + 1) / 32 < 32 := Nat.div_lt_iff_lt_mul (by decide) |>.mpr (by omega)
    have hm : 0 < m := by omega
    simp only [toBase32CoreF, if_neg hne]
    rw [coreF_small hd1 hd2 hm]
    simp

lemma startswith_append_drop {w p : List Char} (h : startswith w p = true) :
    p ++ w.drop p.length = w := by
  have ht := startswith_iff.mp h
  calc p ++ w.drop p.length = w.take p.length ++ w.drop p.length := by rw [ht]
    _ = w := List.take_append_drop _ _

lemma endswith_take_append {w l : List Char} (h : endswith w l = true) :
    w.take (w.length - l.length) ++ l = w := by
  conv_rhs => rw [← List.take_append_drop (w.length - l.length) w]
  rw [endswith_iff.mp h]

/-- Step 1 only splits off a prefix of the word. -/
lemma detectTime_append (w : List Char) :
    ((detectTime w).1.getD []) ++ (detectTime w).2 = w := by
  unfold detectTime
  cases h : time_pres.find? (fun p => startswith w p && _is_valid_stem (w.drop p.length)) with
  | none => simp
  | some p =>
    have hp := List.find?_some h
    rw [Bool.and_eq_true] at hp
    simpa using startswith_append_drop hp.1

/-- The modality loop only splits off a run of prefixes, whatever the fuel. -/
lemma detectModsGo_append : ∀ (fuel : Nat) (w : List Char),
    (detectModsGo fuel w).1.flatten ++ (detectModsGo fuel w).2 = w
  | 0, w => by simp [detectModsGo]
  | Nat.succ fuel, w => by
    by_cases hw : w = []
    · simp [detectModsGo, hw]
    · simp only [detectModsGo, if_neg hw]
      cases h : modality_pres.find? (fun p => startswith w p && _modality_ok (w.drop p.length)) with
      | none => simp
      | some p =>
        have hp := List.find?_some h
        rw [Bool.and_eq_true] at hp
        have ih := detectModsGo_append fuel (w.drop p.length)
        simpa [List.append_assoc, ih] using startswith_append_drop hp.1

/-- Step 3 only splits off a suffix. -/
lemma detectSfx_append (w : List Char) :
    (detectSfx w).2 ++ (((detectSfx w).1).map Prod.fst).getD [] = w := by
  unfold detectSfx
  cases h : suffix_candidates.find? (fun e =>
      endswith w e.1 && _is_valid_stem (w.take (w.length - e.1.length))) with
  | none => simp
  | some e =>
    have hp := List.find?_some h
    rw [Bool.and_eq_true] at hp
    simpa using endswith_take_append hp.1

/-- The fallback analysis has no prefixes and only splits off a suffix. -/
lemma fallback_fields (w : List Char) :
    (_fallback_detection w).timePre = none ∧ (_fallback_detection w).modPres = []
      ∧ (_fallback_detection w).stem
          ++ (((_fallback_detection w).sfx).map Prod.fst).getD [] = w := by
  unfold _fallback_detection
  cases h : suffix_values.find? (fun e =>
      endswith w e.1 && decide (2 ≤ (w.take (w.length - e.1.length)).length)) with
  | none => simp
  | some e =>
    have hp := List.find?_some h
    rw [Bool.and_eq_true] at hp
    exact ⟨rfl, rfl, by simpa using endswith_take_append hp.1⟩

/-! ## The claims -/

/-- Claim C3 (confirmed): the syllable codec round-trips every 1-to-3-letter
syllable over the alphabet whose accumulated base-32 value is below 1024.
(The accumulated value of any 3-letter alphabet syllable is at least 1057, so
those are excluded by the capacity hypothesis.) -/
theorem C3_syllable_roundtrip (s : List Char) (h1 : 1 ≤ s.length) (h2 : s.length ≤ 3)
    (h3 : ∀ c ∈ s, c ∈ alphaChars)
    (h4 : s.foldl (fun code c => code * 32 + _char_to_code c) 0 < 1024) :
    decode_syllable (encode_syllable s) = s := by
  match s with
  | [a] =>
    rw [encode_syllable_one]
    exact (dec_enc_one a (h3 a (by simp))).1
  | [a, b] =>
    rw [encode_syllable_two]
    exact (dec_enc_two a (h3 a (by simp)) b (h3 b (by simp))).1
  | [a, b, c] =>
    exfalso
    have hA := char_code_bounds a (h3 a (by simp))
    have hB := char_code_bounds b (h3 b (by simp))
    have hC := char_code_bounds c (h3 c (by simp))
    simp only [List.foldl] at h4
    omega

/-- Witness for C3 at the syllable `ab`. -/
theorem C3_witness :
    decode_syllable (encode_syllable ['a', 'b']) = ['a', 'b'] :=
  C3_syllable_roundtrip ['a', 'b'] (by decide) (by decide) (by decide) (by decide)

/-- Claim C10 (confirmed): on syllables of at most two characters, decoding
the encoding returns the syllable with every non-alphabet character silently
deleted (such characters are mapped to code 0 by `_char_to_code` and zero
digits are skipped by `decode_syllable`). -/
theorem C10_silent_char_loss (s : List Char) (h : s.length ≤ 2) :
    decode_syllable (encode_syllable s) = s.filter (fun c => decide (c ∈ alphaChars)) := by
  match s with
  | [] => decide
  | [a] =>
    by_cases ha : a ∈ alphaChars
    · rw [encode_syllable_one]
      rw [(dec_enc_one a ha).1]
      simp [ha]
    · rw [encode_syllable_one, char_code_zero ha]
      simp [ha]
      decide
  | [a, b] =>
    rw [encode_syllable_two]
    by_cases ha : a ∈ alphaChars <;> by_cases hb : b ∈ alphaChars
    · rw [(dec_enc_two a ha b hb).1]
      simp [ha, hb]
    · rw [char_code_zero hb, Nat.add_zero]
      rw [dec_enc_lone a ha]
      simp [ha, hb]
    · rw [char_code_zero ha, Nat.zero_mul, Nat.zero_add]
      rw [(dec_enc_one b hb).1]
      simp [ha, hb]
    · rw [char_code_zero ha, char_code_zero hb]
      simp [ha, hb]
      decide
  | a :: b :: c :: t =>
    simp at h

/-- Witness for C10 at the syllable `a-` (the delimiter is not an alphabet
character and is dropped). -/
theorem C10_witness :
    decode_syllable (encode_syllable ['a', '-'])
      = List.filter (fun c => decide (c ∈ alphaChars)) ['a', '-'] :=
  C10_silent_char_loss ['a', '-'] (by decide)

/-- Counterexample to claim C6: `_to_base32 0` takes the early-return path of
the source (line 39-40), which skips the `zfill(2)` padding and yields the
single character `"0"`, not a 2-character string. -/
theorem C6_counterexample : _to_base32 0 = ['0'] ∧ (_to_base32 0).length ≠ 2 := by
  decide

/-- Claim C6 (corrected): `_to_base32` returns exactly 2 characters for every
`n` with `1 ≤ n < 1024`; for input 0 it returns the single unpadded first
alphabet symbol `"0"`. -/
theorem C6_zero_padding (n : Nat) (h1 : 1 ≤ n) (h2 : n < 1024) :
    (_to_base32 n).length = 2 ∧ _to_base32 0 = ['0'] :=
  ⟨to_base32_length h1 h2, by decide⟩

/-- Witness for C6 at `n = 5`. -/
theorem C6_witness : (_to_base32 5).length = 2 ∧ _to_base32 0 = ['0'] :=
  C6_zero_padding 5 (by decide) (by decide)

/-- Claim C7 (confirmed): the collision-probability estimate is clamped to
exactly 1 for every word count strictly greater than 1024. -/
theorem C7_collision_clamp (word_count : Nat) (h : 1024 < word_count) :
    get_collision_probability word_count = 1 := by
  simp [get_collision_probability, h]

/-- Witness for C7 at one million words. -/
theorem C7_witness : get_collision_probability 1000000 = 1 :=
  C7_collision_clamp 1000000 (by decide)

/-- The tag produced for an affix-free analysis, whatever the stem. -/
lemma grammar_code_noaffix (w : List Char) :
    _grammar_affixes_to_code (AffixAnalysis.mk none [] none w)
      = Except.ok ['0', '0', '0', '0', '0', '0'] := rfl

/-- An affix-free word of at most 3 letters is one single syllable. -/
lemma improved_split_noaffix {w : List Char} (hne : w ≠ []) (hlen : w.length ≤ 3)
    (hdet : _detect_grammar_affixes w = AffixAnalysis.mk none [] none w) :
    _improved_syllable_split w = [w] := by
  simp [_improved_syllable_split, hne, hdet, _split_stem_into_syllables, hlen]

/-- `word_to_id` assembles the identifier from the syllable list: optional
length field, then the syllable codes, then (for an affix-free analysis) the
all-zero grammar tag when requested. -/
lemma word_to_id_build (w : List Char) (d : String) (L G : Bool)
    (hdet : _detect_grammar_affixes w = AffixAnalysis.mk none [] none w) :
    word_to_id w d L G
      = Except.ok ((if L then _to_base32 (word_to_syllables w d).length else [])
          ++ ((word_to_syllables w d).map encode_syllable).flatten
          ++ (if G then ['0', '0', '0', '0', '0', '0'] else [])) := by
  unfold word_to_id
  simp only [hdet, grammar_code_noaffix]
  cases L <;> cases G <;> simp [List.append_assoc]

/-- A list of length 2 is a pair. -/
lemma list_len2 {α : Type} {l : List α} (h : l.length = 2) : ∃ u v, l = [u, v] := by
  cases l with
  | nil => simp at h
  | cons x t =>
    cases t with
    | nil => simp at h
    | cons y u =>
      cases u with
      | nil => exact ⟨x, y, rfl⟩
      | cons z v =>
        simp only [List.length_cons] at h
        omega

/-- Syllable round trip and 2-character code width for alphabet pieces of at
most 2 letters (the empty piece encodes to the sentinel `"00"`). -/
lemma syllable_rt_le2 (p : List Char) (hA : ∀ c ∈ p, c ∈ alphaChars)
    (hl : p.length ≤ 2) :
    decode_syllable (encode_syllable p) = p ∧ (encode_syllable p).length = 2 := by
  match p with
  | [] => exact ⟨rfl, rfl⟩
  | [a] =>
    rw [encode_syllable_one]
    exact dec_enc_one a (hA a (by simp))
  | [a, b] =>
    rw [encode_syllable_two]
    exact dec_enc_two a (hA a (by simp)) b (hA b (by simp))
  | a :: b :: c :: t => simp at hl

/-- `pySplitF` always returns at least one piece. -/
lemma pySplitF_ne_nil (sep : List Char) : ∀ fuel w, pySplitF sep fuel w ≠ [] := by
  intro fuel w
  match fuel, w with
  | fuel, [] => simp [pySplitF]
  | 0, c :: rest => simp [pySplitF]
  | Nat.succ fuel, c :: rest =>
    simp only [pySplitF]
    split
    · simp
    · split <;> simp

/-- Prepending a character onto the first piece prepends it onto the joined
string. -/
lemma flatten_intersperse_cons (sep q : List Char) (c : Char) (qs : List (List Char)) :
    (List.intersperse sep ((c :: q) :: qs)).flatten
      = c :: (List.intersperse sep (q :: qs)).flatten := by
  cases qs <;> simp [List.intersperse]

/-- Joining the pieces of a Python split with the separator restores the
string (`sep.join(w.split(sep)) == w`). -/
lemma pySplitF_join (sep : List Char) (hsep : sep ≠ []) :
    ∀ fuel w, w.length ≤ fuel →
      (List.intersperse sep (pySplitF sep fuel w)).flatten = w := by
  intro fuel
  induction fuel with
  | zero =>
    intro w hw
    have hw0 : w = [] := List.eq_nil_of_length_eq_zero (Nat.le_zero.mp hw)
    subst hw0
    rfl
  | succ f ih =>
    intro w hw
    cases w with
    | nil => rfl
    | cons c rest =>
      have hk : 1 ≤ sep.length := by
        cases sep with
        | nil => exact absurd rfl hsep
        | cons s t => simp
      simp only [pySplitF]
      by_cases hs : startswith (c :: rest) sep = true
      · rw [if_pos hs]
        obtain ⟨q, qs, hq⟩ : ∃ q qs, pySplitF sep f ((c :: rest).drop sep.length) = q :: qs := by
          cases hP : pySplitF sep f ((c :: rest).drop sep.length) with
          | nil => exact absurd hP (pySplitF_ne_nil sep f _)
          | cons q qs => exact ⟨q, qs, rfl⟩
        have hfuel : ((c :: rest).drop sep.length).length ≤ f := by
          rw [List.length_drop]
          simp only [List.length_cons] at hw ⊢
          omega
        rw [hq]
        have h1 : (List.intersperse sep ([] :: q :: qs)).flatten
            = sep ++ (List.intersperse sep (q :: qs)).flatten := by
          simp [List.intersperse]
        rw [h1, ← hq, ih _ hfuel]
        exact startswith_append_drop hs
      · rw [if_neg hs]
        obtain ⟨q, qs, hq⟩ : ∃ q qs, pySplitF sep f rest = q :: qs := by
          cases hP : pySplitF sep f rest with
          | nil => exact absurd hP (pySplitF_ne_nil sep f rest)
          | cons q qs => exact ⟨q, qs, rfl⟩
        have hred : (match pySplitF sep f rest with
            | [] => [[c]]
            | p :: ps => (c :: p) :: ps) = (c :: q) :: qs := by rw [hq]
        have hfuel : rest.length ≤ f := by
          simp only [List.length_cons] at hw
          omega
        rw [hred, flatten_intersperse_cons, ← hq, ih rest hfuel]

/-- Every piece of a Python split is a sublist of the string. -/
lemma pySplitF_sublist (sep : List Char) :
    ∀ fuel w, ∀ p ∈ pySplitF sep fuel w, p.Sublist w := by
  intro fuel
  induction fuel with
  | zero =>
    intro w p hp
    cases w with
    | nil =>
      simp [pySplitF] at hp
      subst hp
      exact List.nil_sublist _
    | cons c rest =>
      simp [pySplitF] at hp
      subst hp
      exact List.Sublist.refl _
  | succ f ih =>
    intro w p hp
    cases w with
    | nil =>
      simp [pySplitF] at hp
      subst hp
      exact List.nil_sublist _
    | cons c rest =>
      simp only [pySplitF] at hp
      by_cases hs : startswith (c :: rest) sep = true
      · rw [if_pos hs] at hp
        rcases List.mem_cons.mp hp with rfl | hp2
        · exact List.nil_sublist _
        · exact (ih _ p hp2).trans (List.drop_sublist _ _)
      · rw [if_neg hs] at hp
        obtain ⟨q, qs, hq⟩ : ∃ q qs, pySplitF sep f rest = q :: qs := by
          cases hP : pySplitF sep f rest with
          | nil => exact absurd hP (pySplitF_ne_nil sep f rest)
          | cons q qs => exact ⟨q, qs, rfl⟩
        have hred : (match pySplitF sep f rest with
            | [] => [[c]]
            | p :: ps => (c :: p) :: ps) = (c :: q) :: qs := by rw [hq]
        rw [hred] at hp
        rcases List.mem_cons.mp hp with rfl | hp2
        · exact List.Sublist.cons₂ c (ih rest q (by rw [hq]; exact List.mem_cons_self q qs))
        · exact List.Sublist.cons c (ih rest p (by rw [hq]; exact List.mem_cons_of_mem q hp2))

/-- A Python split of `w` has at most `w.length + 1` pieces. -/
lemma pySplitF_count (sep : List Char) (hsep : sep ≠ []) :
    ∀ fuel w, w.length ≤ fuel → (pySplitF sep fuel w).length ≤ w.length + 1 := by
  intro fuel
  induction fuel with
  | zero =>
    intro w hw
    have hw0 : w = [] := List.eq_nil_of_length_eq_zero (Nat.le_zero.mp hw)
    subst hw0
    simp [pySplitF]
  | succ f ih =>
    intro w hw
    cases w with
    | nil => simp [pySplitF]
    | cons c rest =>
      have hk : 1 ≤ sep.length := by
        cases sep with
        | nil => exact absurd rfl hsep
        | cons s t => simp
      simp only [pySplitF]
      by_cases hs : startswith (c :: rest) sep = true
      · rw [if_pos hs]
        have hfuel : ((c :: rest).drop sep.length).length ≤ f := by
          rw [List.length_drop]
          simp only [List.length_cons] at hw ⊢
          omega
        have := ih _ hfuel
        simp only [List.length_cons, List.length_drop] at this ⊢
        omega
      · rw [if_neg hs]
        obtain ⟨q, qs, hq⟩ : ∃ q qs, pySplitF sep f rest = q :: qs := by
          cases hP : pySplitF sep f rest with
          | nil => exact absurd hP (pySplitF_ne_nil sep f rest)
          | cons q qs => exact ⟨q, qs, rfl⟩
        have hred : (match pySplitF sep f rest with
            | [] => [[c]]
            | p :: ps => (c :: p) :: ps) = (c :: q) :: qs := by rw [hq]
        have hfuel : rest.length ≤ f := by
          simp only [List.length_cons] at hw
          omega
        have := ih rest hfuel
        rw [hq] at this
        rw [hred]
        simp only [List.length_cons] at this ⊢
        omega

set_option maxHeartbeats 1600000 in
/-- The decode half of the assembler on an identifier built from at most 3
syllable codes: recovers the syllables and joins them with the delimiter,
for every delimiter and both optional fields. -/
lemma id_roundtrip (d : String) (L G : Bool) (ss : List (List Char))
    (hp : ∀ p ∈ ss, (∀ c ∈ p, c ∈ alphaChars) ∧ p.length ≤ 2)
    (hn : ss.length ≤ 3) :
    id_to_word ((if L then _to_base32 ss.length else [])
        ++ (ss.map encode_syllable).flatten
        ++ (if G then ['0', '0', '0', '0', '0', '0'] else [])) d L G
      = ((List.intersperse d.toList ss).flatten,
          if G then some (DecodedGrammar.mk none none [] none none) else none) := by
  cases ss with
  | nil => cases L <;> cases G <;> with_unfolding_all rfl
  | cons p1 t1 =>
    obtain ⟨hA1, hL1⟩ := hp p1 (by simp)
    obtain ⟨hd1, he1⟩ := syllable_rt_le2 p1 hA1 hL1
    obtain ⟨u1, v1, hz1⟩ := list_len2 he1
    have hdd1 : decode_syllable [u1, v1] = p1 := by rw [← hz1]; exact hd1
    cases t1 with
    | nil =>
      have hmap : (List.map encode_syllable [p1]).flatten = [u1, v1] := by simp [hz1]
      have hlf : _to_base32 (([p1] : List (List Char)).length) = ['0', '1'] := by
        show _to_base32 1 = ['0', '1']
        rfl
      rw [hmap, hlf]
      cases L <;> cases G
      · trans ((List.intersperse d.toList [decode_syllable [u1, v1]]).flatten,
          (none : Option DecodedGrammar))
        · with_unfolding_all rfl
        · rw [hdd1]
          rfl
      · trans ((List.intersperse d.toList [decode_syllable [u1, v1]]).flatten,
          some (DecodedGrammar.mk none none [] none none))
        · with_unfolding_all rfl
        · rw [hdd1]
          rfl
      · trans ((List.intersperse d.toList [decode_syllable [u1, v1]]).flatten,
          (none : Option DecodedGrammar))
        · with_unfolding_all rfl
        · rw [hdd1]
          rfl
      · trans ((List.intersperse d.toList [decode_syllable [u1, v1]]).flatten,
          some (DecodedGrammar.mk none none [] none none))
        · with_unfolding_all rfl
        · rw [hdd1]
          rfl
    | cons p2 t2 =>
      obtain ⟨hA2, hL2⟩ := hp p2 (by simp)
      obtain ⟨hd2, he2⟩ := syllable_rt_le2 p2 hA2 hL2
      obtain ⟨u2, v2, hz2⟩ := list_len2 he2
      have hdd2 : decode_syllable [u2, v2] = p2 := by rw [← hz2]; exact hd2
      cases t2 with
      | nil =>
        have hmap : (List.map encode_syllable [p1, p2]).flatten = [u1, v1, u2, v2] := by
          simp [hz1, hz2]
        have hlf : _to_base32 (([p1, p2] : List (List Char)).length) = ['0', '2'] := by
          show _to_base32 2 = ['0', '2']
          rfl
        rw [hmap, hlf]
        cases L <;> cases G
        · trans ((List.intersperse d.toList
              [decode_syllable [u1, v1], decode_syllable [u2, v2]]).flatten,
            (none : Option DecodedGrammar))
          · with_unfolding_all rfl
          · rw [hdd1, hdd2]
            rfl
        · trans ((List.intersperse d.toList
              [decode_syllable [u1, v1], decode_syllable [u2, v2]]).flatten,
            some (DecodedGrammar.mk none none [] none none))
          · with_unfolding_all rfl
          · rw [hdd1, hdd2]
            rfl
        · trans ((List.intersperse d.toList
              [decode_syllable [u1, v1], decode_syllable [u2, v2]]).flatten,
            (none : Option DecodedGrammar))
          · with_unfolding_all rfl
          · rw [hdd1, hdd2]
            rfl
        · trans ((List.intersperse d.toList
              [decode_syllable [u1, v1], decode_syllable [u2, v2]]).flatten,
            some (DecodedGrammar.mk none none [] none none))
          · with_unfolding_all rfl
          · rw [hdd1, hdd2]
            rfl
      | cons p3 t3 =>
        obtain ⟨hA3, hL3⟩ := hp p3 (by simp)
        obtain ⟨hd3, he3⟩ := syllable_rt_le2 p3 hA3 hL3
        obtain ⟨u3, v3, hz3⟩ := list_len2 he3
        have hdd3 : decode_syllable [u3, v3] = p3 := by rw [← hz3]; exact hd3
        cases t3 with
        | cons p4 t4 =>
          simp only [List.length_cons] at hn
          omega
        | nil =>
          have hmap : (List.map encode_syllable [p1, p2, p3]).flatten
              = [u1, v1, u2, v2, u3, v3] := by
            simp [hz1, hz2, hz3]
          have hlf : _to_base32 (([p1, p2, p3] : List (List Char)).length) = ['0', '3'] := by
            show _to_base32 3 = ['0', '3']
            rfl
          rw [hmap, hlf]
          cases L <;> cases G
          · trans ((List.intersperse d.toList
                [decode_syllable [u1, v1], decode_syllable [u2, v2],
                  decode_syllable [u3, v3]]).flatten,
              (none : Option DecodedGrammar))
            · with_unfolding_all rfl
            · rw [hdd1, hdd2, hdd3]
              rfl
          · trans ((List.intersperse d.toList
                [decode_syllable [u1, v1], decode_syllable [u2, v2],
                  decode_syllable [u3, v3]]).flatten,
              some (DecodedGrammar.mk none none [] none none))
            · with_unfolding_all rfl
            · rw [hdd1, hdd2, hdd3]
              rfl
          · trans ((List.intersperse d.toList
                [decode_syllable [u1, v1], decode_syllable [u2, v2],
                  decode_syllable [u3, v3]]).flatten,
              (none : Option DecodedGrammar))
            · with_unfolding_all rfl
            · rw [hdd1, hdd2, hdd3]
              rfl
          · trans ((List.intersperse d.toList
                [decode_syllable [u1, v1], decode_syllable [u2, v2],
                  decode_syllable [u3, v3]]).flatten,
              some (DecodedGrammar.mk none none [] none none))
            · with_unfolding_all rfl
            · rw [hdd1, hdd2, hdd3]
              rfl

/-- Counterexample to claim C2: the 3-letter affix-free word `bab` is in the
claim's domain, but its syllable value (1697) needs three base-32 digits, the
decoder reads only two of them, and the round trip returns `ba`, not `bab`. -/
theorem C2_counterexample :
    (∀ c ∈ ['b', 'a', 'b'], c ∈ alphaChars)
      ∧ (['b', 'a', 'b'] : List Char).length ≤ 3
      ∧ _detect_grammar_affixes ['b', 'a', 'b'] = AffixAnalysis.mk none [] none ['b', 'a', 'b']
      ∧ (word_to_id ['b', 'a', 'b'] "-" true true).map
          (fun i => (id_to_word i "-" true true).1) = Except.ok ['b', 'a']
      ∧ (['b', 'a'] : List Char) ≠ ['b', 'a', 'b'] :=
  ⟨by decide, by decide, by decide, rfl, by decide⟩

/-- Claim C2 (corrected): the full encode/decode round trip holds for
affix-free alphabet words of length at most 2, for every delimiter and for
every matching choice of the include_length/include_grammar settings (at
length 3 the syllable code overflows the 2-character field and the claim
fails, see the counterexample). -/
theorem C2_roundtrip_short (w : List Char) (halpha : ∀ c ∈ w, c ∈ alphaChars)
    (hlen : w.length ≤ 2)
    (hdet : _detect_grammar_affixes w = AffixAnalysis.mk none [] none w)
    (d : String) (L G : Bool) :
    (word_to_id w d L G).map (fun i => (id_to_word i d L G).1) = Except.ok w := by
  have key : (∀ p ∈ word_to_syllables w d, (∀ c ∈ p, c ∈ alphaChars) ∧ p.length ≤ 2)
      ∧ (word_to_syllables w d).length ≤ 3
      ∧ (List.intersperse d.toList (word_to_syllables w d)).flatten = w := by
    by_cases hb : d ≠ "" ∧ isSubstringOf d.toList w = true
    · have hss : word_to_syllables w d = pySplit d.toList w := by
        rw [word_to_syllables, if_pos hb]
      have hsep : d.toList ≠ [] := fun hnil => hb.1 (String.ext hnil)
      rw [hss]
      refine ⟨?_, ?_, ?_⟩
      · intro p hpmem
        have hsub := pySplitF_sublist d.toList w.length w p hpmem
        exact ⟨fun c hc => halpha c (hsub.subset hc), le_trans hsub.length_le hlen⟩
      · exact le_trans (pySplitF_count d.toList hsep w.length w (le_refl _)) (by omega)
      · exact pySplitF_join d.toList hsep w.length w (le_refl _)
    · have hss : word_to_syllables w d = _improved_syllable_split w := by
        rw [word_to_syllables, if_neg hb]
      by_cases hw : w = []
      · subst hw
        rw [hss]
        refine ⟨?_, ?_, ?_⟩ <;> simp [_improved_syllable_split]
      · have himp : _improved_syllable_split w = [w] :=
          improved_split_noaffix hw (by omega) hdet
        rw [hss, himp]
        refine ⟨?_, by simp, ?_⟩
        · intro p hpmem
          simp only [List.mem_singleton] at hpmem
          subst hpmem
          exact ⟨halpha, hlen⟩
        · simp [List.intersperse]
  obtain ⟨hp, hn, hjoin⟩ := key
  rw [word_to_id_build w d L G hdet]
  simp only [Except.map]
  rw [id_roundtrip d L G (word_to_syllables w d) hp hn]
  rw [show ((List.intersperse d.toList (word_to_syllables w d)).flatten,
      if G then some (DecodedGrammar.mk none none [] none none) else none).1
    = (List.intersperse d.toList (word_to_syllables w d)).flatten from rfl]
  rw [hjoin]

/-- Witness for C2 at the word `ab` with the default settings. -/
theorem C2_witness :
    (word_to_id ['a', 'b'] "-" true true).map (fun i => (id_to_word i "-" true true).1)
      = Except.ok ['a', 'b'] :=
  C2_roundtrip_short ['a', 'b'] (by decide) (by decide) (by decide) "-" true true

/-- Claim C8 (confirmed): for every word of the form `haka` followed by any
string over the alphabet, the time-prefix pass accepts `ha` (the remainder
`ka...` is a valid stem), and `ka` is never taken as the time prefix. -/
theorem C8_time_before_modality (s : List Char) (h : ∀ c ∈ s, c ∈ alphaChars) :
    (_detect_grammar_affixes (['h', 'a', 'k', 'a'] ++ s)).timePre = some ['h', 'a']
      ∧ (_detect_grammar_affixes (['h', 'a', 'k', 'a'] ++ s)).timePre ≠ some ['k', 'a'] := by
  have ht : detectTime (['h', 'a', 'k', 'a'] ++ s) = (some ['h', 'a'], 'k' :: 'a' :: s) := rfl
  have hm : detectModsGo ('k' :: 'a' :: s).length ('k' :: 'a' :: s) = ([], 'k' :: 'a' :: s) := rfl
  rcases hsf : detectSfx ('k' :: 'a' :: s) with ⟨o, w3⟩
  have hv : _is_valid_stem w3 = true := by
    unfold detectSfx at hsf
    cases hq : suffix_candidates.find? (fun e =>
        endswith ('k' :: 'a' :: s) e.1
          && _is_valid_stem (('k' :: 'a' :: s).take (('k' :: 'a' :: s).length - e.1.length))) with
    | none =>
      rw [hq] at hsf
      cases hsf
      rfl
    | some e =>
      rw [hq] at hsf
      have hp := List.find?_some hq
      rw [Bool.and_eq_true] at hp
      cases hsf
      exact hp.2
  simp only [_detect_grammar_affixes, ht, hm, hsf]
  rw [if_pos hv]
  refine ⟨rfl, ?_⟩
  show (some ['h', 'a'] : Option (List Char)) ≠ some ['k', 'a']
  decide

/-- Witness for C8 at the empty continuation, i.e. the word `haka` itself. -/
theorem C8_witness :
    (_detect_grammar_affixes (['h', 'a', 'k', 'a'] ++ [])).timePre = some ['h', 'a']
      ∧ (_detect_grammar_affixes (['h', 'a', 'k', 'a'] ++ [])).timePre ≠ some ['k', 'a'] :=
  C8_time_before_modality [] (by decide)

/-- Claim C9 (confirmed): every analysis — fallback path included — is an
exact partition of the input word: time prefix, then the modality prefixes in
detected order, then the stem, then the suffix, concatenate back to the
word. -/
theorem C9_partition (w : List Char) :
    ((_detect_grammar_affixes w).timePre.getD [])
      ++ (_detect_grammar_affixes w).modPres.flatten
      ++ (_detect_grammar_affixes w).stem
      ++ (((_detect_grammar_affixes w).sfx.map Prod.fst).getD []) = w := by
  unfold _detect_grammar_affixes
  by_cases hv : _is_valid_stem (detectSfx (detectModsGo (detectTime w).2.length (detectTime w).2).2).2
  · rw [if_pos hv]
    have h3 := detectSfx_append (detectModsGo (detectTime w).2.length (detectTime w).2).2
    have h2 := detectModsGo_append (detectTime w).2.length (detectTime w).2
    have h1 := detectTime_append w
    simp only [List.append_assoc] at h3 h2 h1 ⊢
    rw [h3, h2, h1]
  · rw [if_neg hv]
    obtain ⟨e1, e2, e3⟩ := fallback_fields w
    rw [e1, e2]
    simpa [List.append_assoc] using e3

/-- Claim C1 (code bug): encoding a grammar analysis that carries a
part-of-speech suffix does not produce a 6-character tag at all — the source
evaluates `affix_info['suffix']['prefix']` (line 364), but the stored suffix
dictionary only has the keys `'suffix'` and `'label'`, so Python raises
`KeyError: 'prefix'`.  Shown on the analysis of the word `balaye` (suffix
`ye`, stem `bala`): the whole `word_to_id` call fails instead of emitting
the tag `...SV` the claim describes. -/
theorem C1_suffix_encode_keyerror :
    _detect_grammar_affixes ("balaye".toList)
        = AffixAnalysis.mk none [] (some (['y', 'e'], "Глагол")) ['b', 'a', 'l', 'a']
    ∧ _grammar_affixes_to_code
        (AffixAnalysis.mk none [] (some (['y', 'e'], "Глагол")) ['b', 'a', 'l', 'a'])
        = Except.error ("KeyError: prefix")
    ∧ word_to_id ("balaye".toList) "-" true true = Except.error ("KeyError: prefix") :=
  ⟨rfl, rfl, rfl⟩

/-- Counterexample to claim C4: analyzing `hatotalaye` does NOT return
modality prefixes `[to]` with stem `tala` — the modality loop also consumes
`ta` out of `talaye` (because stripping it still leaves the strippable
suffix `ye` over the valid stem `la`). -/
theorem C4_counterexample :
    ¬ (_detect_grammar_affixes ("hatotalaye".toList)
        = AffixAnalysis.mk (some ['h', 'a']) [['t', 'o']]
            (some (['y', 'e'], "Глагол")) ("tala".toList)) := by
  decide

/-- Claim C4 (corrected): analyzing `hatotalaye` returns time prefix `ha`,
modality prefixes `[to, ta]`, suffix `ye` and stem `la` — an equivalent
valid decomposition of the same word. -/
theorem C4_canonical_example :
    _detect_grammar_affixes ("hatotalaye".toList)
      = AffixAnalysis.mk (some ['h', 'a']) [['t', 'o'], ['t', 'a']]
          (some (['y', 'e'], "Глагол")) ['l', 'a'] := by
  decide

/-- Claim C5 (confirmed): `word_to_id "ab"` with the default settings yields
the length field `01`, the 2-character syllable code of `ab` (namely `L1`),
and the all-zero grammar tag `000000`; decoding that identifier with the
same settings returns `ab`. -/
theorem C5_concrete_ab :
    word_to_id ("ab".toList) "-" true true
        = Except.ok (['0', '1'] ++ encode_syllable ("ab".toList) ++ ['0', '0', '0', '0', '0', '0'])
    ∧ encode_syllable ("ab".toList) = ['L', '1']
    ∧ (id_to_word (['0', '1'] ++ encode_syllable ("ab".toList) ++ ['0', '0', '0', '0', '0', '0'])
        "-" true true).1 = "ab".toList :=
  ⟨rfl, rfl, rfl⟩

end WordID
